import Mathlib

/-!
Verification of the core logic of the Aimer_WT voice-mod manager.

The development shallowly embeds the pure content of the Python sources:

* `manifest_manager.py` — the installation manifest (ownership ledger);
* `core_logic.py` — config-file toggle (`_update_config_blk`,
  `_disable_config_mod`, `_rollback_config`), restore (`restore_game`,
  `_is_safe_deletion_path`) and the installer (`install_from_library`);
* `library_manager.py` — safe ZIP extraction (`_extract_zip_safely`) and
  the password retry loop (`_extract_archive_with_password`,
  `unzip_single_zip`).

Python dictionaries are modelled as functions `String → Option α`
(lookup semantics; iteration order is never observed by the claims),
file contents as `String`, and filesystem paths as lists of path
segments from the filesystem root (a path is identified with its
resolution: symlinks are not modelled, `..` is resolved lexically,
which matches `Path.resolve()` on the freshly created trees that the
code manipulates).  I/O is modelled as succeeding except where a claim
is explicitly about an injected failure (the config write / verify
steps, which take failure-injection parameters).
-/

namespace AimerWT

/-! ### String utilities

`strContains s sub` mirrors Python's `sub in s`; `replaceList` mirrors
Python's `str.replace` (all leftmost non-overlapping occurrences).
-/

/-- Occurrence of `sub` as a contiguous sublist of `big`,
mirroring Python's `sub in big` on the character lists. -/
def listContains (big sub : List Char) : Bool :=
  match big with
  | [] => sub.isEmpty
  | _ :: rest => sub.isPrefixOf big || listContains rest sub

/-- Python's `sub in s` substring test. -/
def strContains (s sub : String) : Bool :=
  listContains s.data sub.data

theorem listContains_iff (big sub : List Char) :
    listContains big sub = true ↔ sub <:+: big := by
  induction big with
  | nil =>
    rw [listContains, List.isEmpty_iff]
    constructor
    · rintro rfl; exact ⟨[], [], rfl⟩
    · rintro ⟨s, t, h⟩
      have hlen := congrArg List.length h
      simp at hlen
      exact hlen.2.1
  | cons c rest ih =>
    rw [listContains]
    rw [Bool.or_eq_true, List.isPrefixOf_iff_prefix, ih, List.infix_cons_iff]

/-- Python's `str.replace pat rep` on character lists: replaces every
leftmost non-overlapping occurrence of `pat` by `rep`. -/
def replaceList (pat rep : List Char) : List Char → List Char
  | [] => []
  | c :: rest =>
    if pat.isPrefixOf (c :: rest) ∧ 0 < pat.length then
      rep ++ replaceList pat rep (rest.drop (pat.length - 1))
    else
      c :: replaceList pat rep rest
termination_by l => l.length
decreasing_by
  · simp only [List.length_drop, List.length_cons]
    omega
  · simp only [List.length_cons]
    omega

/-- Python's `str.replace`. -/
def strReplace (s pat rep : String) : String :=
  String.mk (replaceList pat.data rep.data s.data)

/-! ### The installation manifest (`manifest_manager.py`)

`self.manifest` is the JSON object
`{"installed_mods": {...}, "file_map": {...}}`; both dictionaries are
modelled as lookup functions.  `install_time` (an ISO timestamp) is
abstracted to a `Nat`.
-/

/-- One entry of `installed_mods`: `{"files": [...], "install_time": ...}`. -/
structure ModRec where
  files : List String
  install_time : Nat
deriving DecidableEq, Repr

/-- The in-memory manifest of `ManifestManager`. -/
structure Manifest where
  installed_mods : String → Option ModRec
  file_map : String → Option String

/-- The empty ledger `{"installed_mods": {}, "file_map": {}}`. -/
def emptyManifest : Manifest :=
  { installed_mods := fun _ => none, file_map := fun _ => none }

/-- Dictionary update `d[k] = v`. -/
def mapInsert (m : String → Option α) (k : String) (v : α) : String → Option α :=
  fun q => if q = k then some v else m q

/-- Dictionary deletion `del d[k]`. -/
def mapErase (m : String → Option α) (k : String) : String → Option α :=
  fun q => if q = k then none else m q

/-- A conflict record emitted by `check_conflicts`:
`{"file": ..., "existing_mod": ..., "new_mod": ...}`. -/
structure Conflict where
  file : String
  existing_mod : String
  new_mod : String
deriving DecidableEq, Repr

/-- `ManifestManager.check_conflicts` (manifest_manager.py:44-68):
for each candidate file already in `file_map` under a different mod,
emit a conflict record, in candidate order. -/
def check_conflicts (m : Manifest) (mod_name : String)
    (files_to_install : List String) : List Conflict :=
  files_to_install.filterMap fun file_name =>
    match m.file_map file_name with
    | some existing_mod =>
      if existing_mod ≠ mod_name then
        some { file := file_name, existing_mod := existing_mod, new_mod := mod_name }
      else
        none
    | none => none

/-- `ManifestManager.record_installation` (manifest_manager.py:70-90):
stores/overwrites the mod's `installed_mods` entry and claims ownership
of every listed file in `file_map`. -/
def record_installation (m : Manifest) (mod_name : String)
    (installed_files : List String) (now : Nat) : Manifest :=
  { installed_mods :=
      mapInsert m.installed_mods mod_name { files := installed_files, install_time := now },
    file_map :=
      installed_files.foldl (fun fm file_name => mapInsert fm file_name mod_name) m.file_map }

/-- `ManifestManager.remove_mod_record` (manifest_manager.py:92-109).
The returned `Bool` records whether `_save_manifest` was called. -/
def remove_mod_record (m : Manifest) (mod_name : String) : Manifest × Bool :=
  match m.installed_mods mod_name with
  | none => (m, false)
  | some r =>
    let fm := r.files.foldl
      (fun fm file_name =>
        if fm file_name = some mod_name then mapErase fm file_name else fm)
      m.file_map
    ({ installed_mods := mapErase m.installed_mods mod_name, file_map := fm }, true)

/-- `ManifestManager.clear_manifest` (manifest_manager.py:111-119):
reset to an empty ledger (the backing file is deleted by the caller model). -/
def clear_manifest : Manifest := emptyManifest

theorem mapInsert_self (m : String → Option α) (k : String) (v : α) :
    mapInsert m k v k = some v := by
  simp [mapInsert]

theorem mapInsert_ne (m : String → Option α) (k q : String) (v : α) (h : q ≠ k) :
    mapInsert m k v q = m q := by
  simp [mapInsert, h]

/-- Pointwise effect of the `file_map` cleanup loop of `remove_mod_record`. -/
theorem fold_erase_lookup (mod_name : String) (fs : List String)
    (fm : String → Option String) (f : String) :
    (fs.foldl (fun fm g => if fm g = some mod_name then mapErase fm g else fm) fm) f
      = if f ∈ fs ∧ fm f = some mod_name then none else fm f := by
  induction fs generalizing fm with
  | nil => simp
  | cons g rest ih =>
    rw [List.foldl_cons, ih]
    by_cases hgf : f = g
    · subst hgf
      by_cases hown : fm f = some mod_name
      · simp [hown, mapErase]
      · simp only [hown, if_neg hown]
        split
        · rename_i hsplit
          simp_all
        · simp_all
    · have hstep : (if fm g = some mod_name then mapErase fm g else fm) f = fm f := by
        split
        · simp [mapErase, hgf]
        · rfl
      rw [hstep]
      by_cases hmem : f ∈ rest
      · simp [hmem, hgf]
      · simp [hmem, hgf]

/-- C2: after `record_installation A [x]` then `record_installation B [x]`
with `A ≠ B`, `file_map x = B` while `installed_mods A` still lists `x`:
ownership is unconditionally overwritten to the latest installer and the
earlier package's historical record is untouched. -/
theorem record_installation_last_writer_wins
    (m : Manifest) (A B x : String) (t1 t2 : Nat) (hAB : A ≠ B) :
    ((record_installation (record_installation m A [x] t1) B [x] t2).file_map x = some B)
    ∧ (∃ r, (record_installation (record_installation m A [x] t1) B [x] t2).installed_mods A
          = some r ∧ x ∈ r.files) := by
  constructor
  · simp [record_installation, mapInsert]
  · refine ⟨{ files := [x], install_time := t1 }, ?_, by simp⟩
    simp [record_installation, mapInsert, hAB]

/-- Witness for `record_installation_last_writer_wins` at `A`, `B`, `x`. -/
theorem record_installation_last_writer_wins_witness :
    ((record_installation (record_installation emptyManifest "A" ["x.bank"] 0) "B" ["x.bank"] 1).file_map "x.bank" = some "B")
    ∧ (∃ r, (record_installation (record_installation emptyManifest "A" ["x.bank"] 0) "B" ["x.bank"] 1).installed_mods "A"
          = some r ∧ "x.bank" ∈ r.files) :=
  record_installation_last_writer_wins emptyManifest "A" "B" "x.bank" 0 1 (by decide)

/-- C3: `check_conflicts` returns a conflict exactly for candidates owned by a
different package (untracked / same-owner candidates yield none), and the
concrete A/B scenario: install A then B, `check_conflicts A [x]` names B,
`check_conflicts B [x]` is empty, and after reinstalling B it stays empty. -/
theorem check_conflicts_spec :
    (∀ (m : Manifest) (mod_name : String) (files : List String) (c : Conflict),
      c ∈ check_conflicts m mod_name files ↔
        (c.new_mod = mod_name ∧ c.file ∈ files
          ∧ m.file_map c.file = some c.existing_mod ∧ c.existing_mod ≠ mod_name))
    ∧ (∀ (m : Manifest) (A B x : String) (t1 t2 t3 : Nat), A ≠ B →
        check_conflicts (record_installation (record_installation m A [x] t1) B [x] t2) A [x]
            = [{ file := x, existing_mod := B, new_mod := A }]
          ∧ check_conflicts (record_installation (record_installation m A [x] t1) B [x] t2) B [x] = []
          ∧ check_conflicts
              (record_installation (record_installation (record_installation m A [x] t1) B [x] t2) B [x] t3)
              B [x] = []) := by
  constructor
  · intro m mod_name files c
    constructor
    · intro hc
      rw [check_conflicts, List.mem_filterMap] at hc
      obtain ⟨f, hf, hfc⟩ := hc
      cases howner : m.file_map f with
      | none =>
        rw [howner] at hfc
        exact absurd hfc (by simp)
      | some e =>
        rw [howner] at hfc
        have hfc' :
            (if e ≠ mod_name then
              some { file := f, existing_mod := e, new_mod := mod_name }
            else (none : Option Conflict)) = some c := hfc
        by_cases he : e ≠ mod_name
        · rw [if_pos he] at hfc'
          cases hfc'
          exact ⟨rfl, hf, howner, he⟩
        · rw [if_neg he] at hfc'
          exact absurd hfc' (by simp)
    · rintro ⟨hnew, hfile, howner, hne⟩
      rw [check_conflicts, List.mem_filterMap]
      refine ⟨c.file, hfile, ?_⟩
      rw [howner]
      show (if c.existing_mod ≠ mod_name then
          some { file := c.file, existing_mod := c.existing_mod, new_mod := mod_name }
        else (none : Option Conflict)) = some c
      rw [if_pos hne, ← hnew]
  · intro m A B x t1 t2 t3 hAB
    have hmapBx :
        (record_installation (record_installation m A [x] t1) B [x] t2).file_map x = some B := by
      simp [record_installation, mapInsert]
    refine ⟨?_, ?_, ?_⟩
    · simp [check_conflicts, hmapBx, Ne.symm hAB]
    · simp [check_conflicts, hmapBx]
    · simp [check_conflicts, record_installation, mapInsert]

/-- Witness for `check_conflicts_spec`: the A/B scenario at concrete names. -/
theorem check_conflicts_spec_witness :
    check_conflicts
        (record_installation (record_installation emptyManifest "A" ["x.bank"] 0) "B" ["x.bank"] 1)
        "A" ["x.bank"]
      = [{ file := "x.bank", existing_mod := "B", new_mod := "A" }] :=
  (check_conflicts_spec.2 emptyManifest "A" "B" "x.bank" 0 1 2 (by decide)).1

/-- C10: `remove_mod_record mod` deletes the mod's `installed_mods` entry and
removes from `file_map` only the mod's listed files it still owns; files since
overwritten by another package (or unlisted files) keep their mapping; with no
`installed_mods` entry the manifest is returned unchanged and not re-saved. -/
theorem remove_mod_record_spec (m : Manifest) (mod_name : String) :
    (m.installed_mods mod_name = none → remove_mod_record m mod_name = (m, false))
    ∧ (∀ r, m.installed_mods mod_name = some r →
        ((remove_mod_record m mod_name).2 = true
          ∧ (remove_mod_record m mod_name).1.installed_mods mod_name = none
          ∧ (∀ p, p ≠ mod_name →
              (remove_mod_record m mod_name).1.installed_mods p = m.installed_mods p)
          ∧ (∀ f, f ∈ r.files → m.file_map f = some mod_name →
              (remove_mod_record m mod_name).1.file_map f = none)
          ∧ (∀ f, m.file_map f ≠ some mod_name →
              (remove_mod_record m mod_name).1.file_map f = m.file_map f)
          ∧ (∀ f, f ∉ r.files →
              (remove_mod_record m mod_name).1.file_map f = m.file_map f))) := by
  constructor
  · intro hnone
    rw [remove_mod_record, hnone]
  · intro r hr
    rw [remove_mod_record, hr]
    refine ⟨rfl, ?_, ?_, ?_, ?_, ?_⟩
    · simp [mapErase]
    · intro p hp
      simp [mapErase, hp]
    · intro f hfmem hfown
      simp only
      rw [fold_erase_lookup]
      simp [hfmem, hfown]
    · intro f hfnot
      simp only
      rw [fold_erase_lookup]
      simp [hfnot]
    · intro f hfmem
      simp only
      rw [fold_erase_lookup]
      simp [hfmem]

/-- Witness for `remove_mod_record_spec`: a manifest where A installed
`x` and `y` and B later overwrote `y`; removing A erases A's entry and
`x`'s mapping but leaves `y` owned by B. -/
theorem remove_mod_record_spec_witness :
    ((remove_mod_record (record_installation (record_installation emptyManifest "A" ["x.bank", "y.bank"] 0) "B" ["y.bank"] 1) "A").1.file_map "x.bank" = none)
    ∧ ((remove_mod_record (record_installation (record_installation emptyManifest "A" ["x.bank", "y.bank"] 0) "B" ["y.bank"] 1) "A").1.file_map "y.bank" = some "B")
    ∧ ((remove_mod_record (record_installation (record_installation emptyManifest "A" ["x.bank", "y.bank"] 0) "B" ["y.bank"] 1) "A").1.installed_mods "A" = none) := by
  have h := remove_mod_record_spec
    (record_installation (record_installation emptyManifest "A" ["x.bank", "y.bank"] 0) "B" ["y.bank"] 1) "A"
  have hsome := h.2 { files := ["x.bank", "y.bank"], install_time := 0 } (by decide)
  refine ⟨?_, ?_, hsome.2.1⟩
  · exact hsome.2.2.2.1 "x.bank" (by decide) (by decide)
  · have := hsome.2.2.2.2.1 "y.bank" (by decide)
    rw [this]
    decide

/-! ### Config toggle (`core_logic.py`, `_update_config_blk` and friends)

`config.blk` content is a `String`; `ConfigFS` holds the contents of
`config.blk` and `config.blk.backup` (`none` = file absent).  The two
failure-injection parameters model the only I/O failures the claims
are about: `writeOk = false` makes the write throw, `verifyTamper`
substitutes the content observed by the post-write verification read
(e.g. the file was locked and kept its old bytes).  All other I/O
(backup copy, rollback copy) is modelled as succeeding.
-/

/-- ASCII whitespace accepted by the `\s` of the `sound\s*\{` regex. -/
def isBlankChar (c : Char) : Bool :=
  c = ' ' || c = '\t' || c = '\n' || c = '\r' || c = '\x0B' || c = '\x0C'

/-- Match of the regex `sound\s*\{` (case-insensitive) at the head of `cs`:
returns the matched opener text and the remaining text. -/
def matchSoundAt (cs : List Char) : Option (List Char × List Char) :=
  match cs with
  | c1 :: c2 :: c3 :: c4 :: c5 :: rest =>
    if c1.toLower = 's' ∧ c2.toLower = 'o' ∧ c3.toLower = 'u'
        ∧ c4.toLower = 'n' ∧ c5.toLower = 'd' then
      match rest.dropWhile isBlankChar with
      | '{' :: tail =>
        some (c1 :: c2 :: c3 :: c4 :: c5 :: (rest.takeWhile isBlankChar ++ ['{']), tail)
      | _ => none
    else none
  | _ => none

/-- Leftmost match of `sound\s*\{` in the content
(`re.compile(r'(sound\s*\{)', re.IGNORECASE).search`):
returns `(textBefore, matchedOpener, textAfter)`. -/
def findSound : List Char → Option (List Char × List Char × List Char)
  | [] => none
  | c :: rest =>
    match matchSoundAt (c :: rest) with
    | some (m, tail) => some ([], m, tail)
    | none =>
      match findSound rest with
      | some (pre, m, tail) => some (c :: pre, m, tail)
      | none => none

/-- The enable marker `enable_mod:b=yes`. -/
def yesMarker : String := "enable_mod:b=yes"

/-- The disable marker `enable_mod:b=no`. -/
def noMarker : String := "enable_mod:b=no"

/-- The replacement text `\1\n  enable_mod:b=yes` minus the kept group:
the line inserted right after the `sound{` opener. -/
def insertedLine : String := "\n  enable_mod:b=yes"

/-- The pure content transformation of `_update_config_blk`
(core_logic.py:693-710), applied when the yes-marker is absent:
replace a present `enable_mod:b=no`, else insert after the `sound{`
opener; `none` models the no-`sound{}`-block failure (no write attempted). -/
def enableTransform (content : String) : Option String :=
  if strContains content noMarker then
    some (strReplace content noMarker yesMarker)
  else
    match findSound content.data with
    | some (pre, m, tail) => some (String.mk (pre ++ m ++ insertedLine.data ++ tail))
    | none => none

/-- Contents of `config.blk` and `config.blk.backup` (`none` = absent). -/
structure ConfigFS where
  config : Option String
  backup : Option String
deriving DecidableEq, Repr

/-- Result of the config-enable operation: final files, returned Bool,
and whether a write to `config.blk` was attempted. -/
structure ConfigResult where
  fs : ConfigFS
  ok : Bool
  wroteConfig : Bool
deriving DecidableEq, Repr

/-- `CoreService._update_config_blk` (core_logic.py:653-745) with
`_rollback_config` (core_logic.py:747-760) inlined for the two
rollback sites (write throws / verification fails). -/
def updateConfigBlk (fs : ConfigFS) (writeOk : Bool)
    (verifyTamper : Option String) : ConfigResult :=
  match fs.config with
  | none => { fs := fs, ok := false, wroteConfig := false }
  | some content =>
    let fs1 : ConfigFS := { config := some content, backup := some content }
    if strContains content yesMarker then
      { fs := fs1, ok := true, wroteConfig := false }
    else
      match enableTransform content with
      | none => { fs := fs1, ok := false, wroteConfig := false }
      | some newContent =>
        if newContent ≠ content then
          if writeOk then
            if strContains (verifyTamper.getD newContent) yesMarker then
              { fs := { config := some newContent, backup := some content },
                ok := true, wroteConfig := true }
            else
              { fs := { config := some content, backup := some content },
                ok := false, wroteConfig := true }
          else
            { fs := { config := some content, backup := some content },
              ok := false, wroteConfig := true }
        else
          { fs := fs1, ok := true, wroteConfig := false }

/-- If the pattern occurs in `l`, the replacement occurs in the output of
`replaceList`. -/
theorem replace_gives_rep (pat rep : List Char) (hpat : pat ≠ []) :
    ∀ l : List Char, pat <:+: l → rep <:+: replaceList pat rep l := by
  have main : ∀ (n : Nat) (l : List Char), l.length ≤ n →
      pat <:+: l → rep <:+: replaceList pat rep l := by
    intro n
    induction n with
    | zero =>
      intro l hl hinf
      have hlnil : l = [] := by
        cases l with
        | nil => rfl
        | cons a as => simp at hl
      subst hlnil
      obtain ⟨s, t, hst⟩ := hinf
      have := congrArg List.length hst
      simp at this
      exact absurd this.2.1 hpat
    | succ n ih =>
      intro l hl hinf
      cases l with
      | nil =>
        obtain ⟨s, t, hst⟩ := hinf
        have := congrArg List.length hst
        simp at this
        exact absurd this.2.1 hpat
      | cons c rest =>
        rw [replaceList]
        split
        · exact ⟨[], replaceList pat rep (rest.drop (pat.length - 1)), by simp⟩
        · rename_i hcond
          have hnpre : ¬ pat <+: (c :: rest) := by
            intro hp
            exact hcond ⟨List.isPrefixOf_iff_prefix.mpr hp, List.length_pos.mpr hpat⟩
          have hrest : pat <:+: rest := by
            rcases List.infix_cons_iff.mp hinf with h | h
            · exact absurd h hnpre
            · exact h
          obtain ⟨s, t, hst⟩ := ih rest (by simp at hl; omega) hrest
          exact ⟨c :: s, t, by rw [← hst]; rfl⟩
  intro l
  exact main l.length l (Nat.le_refl _)

/-- An occurrence inside the middle block survives flanking appends. -/
theorem occ_in_middle {x mid : List Char} (a b : List Char) (h : x <:+: mid) :
    x <:+: a ++ mid ++ b := by
  obtain ⟨s, t, hst⟩ := h
  exact ⟨a ++ s, t ++ b, by rw [← hst]; simp⟩

/-- Any content produced by `enableTransform` contains the enable marker. -/
theorem enableTransform_contains_marker (content nc : String)
    (h : enableTransform content = some nc) :
    strContains nc yesMarker = true := by
  rw [enableTransform] at h
  split at h
  · rename_i hno
    cases h
    rw [strContains, listContains_iff]
    have hocc : noMarker.data <:+: content.data := by
      rw [strContains, listContains_iff] at hno
      exact hno
    exact replace_gives_rep noMarker.data yesMarker.data (by decide) content.data hocc
  · rename_i hno
    split at h
    · rename_i pre m tail hfind
      cases h
      rw [strContains, listContains_iff]
      show yesMarker.data <:+: (pre ++ m ++ insertedLine.data ++ tail)
      have hmid : yesMarker.data <:+: insertedLine.data := by decide
      have := @occ_in_middle yesMarker.data insertedLine.data (pre ++ m) tail hmid
      simpa [List.append_assoc] using this
    · cases h

/-- C4: whenever the enable operation fails — missing/unreadable file,
`BlockNotFound` (in which case no write is attempted), verification
failure, or a throwing write — the content of `config.blk` afterwards
equals its content before the call. -/
theorem update_config_blk_failure_preserves_config
    (fs : ConfigFS) (writeOk : Bool) (verifyTamper : Option String) :
    ((updateConfigBlk fs writeOk verifyTamper).ok = false →
      (updateConfigBlk fs writeOk verifyTamper).fs.config = fs.config)
    ∧ (∀ content, fs.config = some content →
        strContains content yesMarker = false →
        enableTransform content = none →
        (updateConfigBlk fs writeOk verifyTamper).ok = false
          ∧ (updateConfigBlk fs writeOk verifyTamper).wroteConfig = false) := by
  obtain ⟨cfg, bak⟩ := fs
  cases cfg with
  | none =>
    exact ⟨fun _ => rfl, fun content hc _ _ => by cases hc⟩
  | some content =>
    constructor
    · dsimp only [updateConfigBlk]
      split
      · intro h; cases h
      · split
        · intro _; rfl
        · split
          · split
            · split
              · intro h; cases h
              · intro _; rfl
            · intro _; rfl
          · intro h; cases h
    · intro content2 hc hyes henab
      have hc2 : content2 = content := by
        injection hc with hc'
        exact hc'.symm
      subst hc2
      dsimp only [updateConfigBlk]
      rw [hyes]
      simp [henab]

/-- Witness for `update_config_blk_failure_preserves_config`: a config
with neither marker nor a `sound{` block fails with no write and keeps
its content. -/
theorem update_config_blk_failure_preserves_config_witness :
    ((updateConfigBlk { config := some "hello", backup := none } true none).ok = false
      ∧ (updateConfigBlk { config := some "hello", backup := none } true none).fs.config
          = some "hello"
      ∧ (updateConfigBlk { config := some "hello", backup := none } true none).wroteConfig
          = false) := by
  have h := update_config_blk_failure_preserves_config
    { config := some "hello", backup := none } true none
  have h2 := h.2 "hello" rfl (by decide) (by decide)
  exact ⟨h2.1, h.1 h2.1, h2.2⟩

/-- C5: the enable operation is idempotent — a second call never changes
`config.blk` again, and when the marker is already present the call
succeeds immediately without modifying the file. -/
theorem update_config_blk_idempotent (fs : ConfigFS) :
    ((updateConfigBlk (updateConfigBlk fs true none).fs true none).fs.config
        = (updateConfigBlk fs true none).fs.config)
    ∧ (∀ content, fs.config = some content → strContains content yesMarker = true →
        updateConfigBlk fs true none
          = { fs := { config := some content, backup := some content },
              ok := true, wroteConfig := false }) := by
  obtain ⟨cfg, bak⟩ := fs
  constructor
  · cases cfg with
    | none => rfl
    | some content =>
      by_cases h1 : strContains content yesMarker
      · simp [updateConfigBlk, h1]
      · cases henab : enableTransform content with
        | none =>
          simp [updateConfigBlk, h1, henab]
        | some nc =>
          by_cases hne : nc = content
          · subst hne
            simp [updateConfigBlk, h1, henab]
          · have hmark : strContains nc yesMarker = true :=
              enableTransform_contains_marker content nc henab
            simp [updateConfigBlk, h1, henab, hne, hmark]
  · intro content hc hyes
    have hc2 : cfg = some content := hc
    subst hc2
    simp [updateConfigBlk, hyes]

/-- Witness for `update_config_blk_idempotent`: a config already carrying
the marker is returned unchanged with success. -/
theorem update_config_blk_idempotent_witness :
    updateConfigBlk { config := some "sound{ enable_mod:b=yes }", backup := none } true none
      = { fs := { config := some "sound{ enable_mod:b=yes }",
                  backup := some "sound{ enable_mod:b=yes }" },
          ok := true, wroteConfig := false } :=
  (update_config_blk_idempotent { config := some "sound{ enable_mod:b=yes }", backup := none }).2
    "sound{ enable_mod:b=yes }" rfl (by decide)

/-! ### `str.replace` removes the pattern

For marker pairs with no self-overlap (no suffix of the replacement
starts the pattern, no proper tail of the pattern starts the
replacement), the output of `replaceList` contains no occurrence of the
pattern.  This backs the "marker reads no after restore" part of the
restore claim.
-/

/-- If `a` is a prefix of `b ++ c` and `b` is no longer than `a`,
then `b` is a prefix of `a`. -/
theorem pref_transfer_long {a b c : List Char} (h : a <+: b ++ c)
    (hlen : b.length ≤ a.length) : b <+: a := by
  obtain ⟨u, hu⟩ := h
  have h2 : ((b ++ c) : List Char).take b.length = b := List.take_left b c
  rw [← hu] at h2
  rw [List.take_append_eq_append_take] at h2
  have h0 : b.length - a.length = 0 := by omega
  rw [h0] at h2
  simp only [List.take_zero, List.append_nil] at h2
  rw [← h2]
  exact List.take_prefix _ _

/-- If `a` is a prefix of `b ++ c` and `a` is no longer than `b`,
then `a` is a prefix of `b`. -/
theorem pref_transfer_short {a b c : List Char} (h : a <+: b ++ c)
    (hlen : a.length ≤ b.length) : a <+: b := by
  obtain ⟨u, hu⟩ := h
  have h1 : ((a ++ u) : List Char).take a.length = a := List.take_left a u
  rw [hu] at h1
  rw [List.take_append_eq_append_take] at h1
  have h0 : a.length - b.length = 0 := by omega
  rw [h0] at h1
  simp only [List.take_zero, List.append_nil] at h1
  rw [← h1]
  exact List.take_prefix _ _

/-- An occurrence in `a ++ b` either lies in `b` or starts inside `a`. -/
theorem occ_append_split {pat a b : List Char} (h : pat <:+: a ++ b) :
    pat <:+: b ∨ ∃ i, i < a.length ∧ pat <+: (a.drop i ++ b) := by
  obtain ⟨s, t, hst⟩ := h
  by_cases hlen : a.length ≤ s.length
  · left
    have hdrop : (a ++ b).drop a.length = b := List.drop_left a b
    rw [← hst, List.append_assoc, List.drop_append_eq_append_drop] at hdrop
    have h0 : a.length - s.length = 0 := by omega
    rw [h0] at hdrop
    simp only [List.drop_zero] at hdrop
    exact ⟨s.drop a.length, t, by rw [← hdrop]; simp [List.append_assoc]⟩
  · right
    refine ⟨s.length, by omega, ?_⟩
    have hdrop : (a ++ b).drop s.length = a.drop s.length ++ b := by
      rw [List.drop_append_eq_append_drop]
      have h0 : s.length - a.length = 0 := by omega
      rw [h0]
      simp
    rw [← hst, List.append_assoc, List.drop_append_eq_append_drop] at hdrop
    simp only [List.drop_length, Nat.sub_self, List.drop_zero, List.nil_append] at hdrop
    exact ⟨t, hdrop⟩

/-- Core induction: outputs of `replaceList` never contain the pattern, and
any proper nonempty tail of the pattern that prefixes the output already
prefixed the input.  Side conditions: the replacement is one shorter than
the pattern, no suffix of the replacement begins the pattern, and no proper
tail of the pattern begins the replacement. -/
theorem replace_strong (pat rep : List Char)
    (hlen : rep.length + 1 = pat.length)
    (hA : ∀ i, i < rep.length → (rep.drop i).isPrefixOf pat = false)
    (hB : ∀ k, k < pat.length → 0 < k → (pat.drop k).isPrefixOf rep = false) :
    ∀ (n : Nat) (l : List Char), l.length ≤ n →
      (¬ pat <:+: replaceList pat rep l)
      ∧ (∀ k, 0 < k → k < pat.length → pat.drop k <+: replaceList pat rep l →
          pat.drop k <+: l) := by
  have hpat0 : 0 < pat.length := by omega
  intro n
  induction n with
  | zero =>
    intro l hl
    have hlnil : l = [] := List.length_eq_zero.mp (by omega)
    subst hlnil
    have hnil : replaceList pat rep [] = [] := by rw [replaceList]
    rw [hnil]
    constructor
    · intro h
      obtain ⟨s, t, hst⟩ := h
      have := congrArg List.length hst
      simp only [List.length_append, List.length_nil] at this
      omega
    · intro k hk0 hk hpre
      obtain ⟨u, hu⟩ := hpre
      have := congrArg List.length hu
      simp only [List.length_append, List.length_nil, List.length_drop] at this
      omega
  | succ n ih =>
    intro l hl
    cases l with
    | nil => exact ih [] (by simp)
    | cons c rest =>
      have hrl : replaceList pat rep (c :: rest) =
          if pat.isPrefixOf (c :: rest) = true ∧ 0 < pat.length then
            rep ++ replaceList pat rep (rest.drop (pat.length - 1))
          else c :: replaceList pat rep rest := by
        rw [replaceList]
      have hrestlen : rest.length ≤ n := by
        simp at hl
        omega
      by_cases hcond : pat.isPrefixOf (c :: rest) = true ∧ 0 < pat.length
      · rw [hrl, if_pos hcond]
        have ihW := ih (rest.drop (pat.length - 1))
          (by simp only [List.length_drop]; omega)
        constructor
        · intro hocc
          rcases occ_append_split hocc with hW | ⟨i, hi, hpre⟩
          · exact ihW.1 hW
          · have hrp : (rep.drop i) <+: pat :=
              pref_transfer_long hpre (by simp only [List.length_drop]; omega)
            have htrue : (rep.drop i).isPrefixOf pat = true :=
              List.isPrefixOf_iff_prefix.mpr hrp
            rw [hA i hi] at htrue
            cases htrue
        · intro k hk0 hk hpre
          have hshort : pat.drop k <+: rep :=
            pref_transfer_short hpre (by simp only [List.length_drop]; omega)
          have htrue : (pat.drop k).isPrefixOf rep = true :=
            List.isPrefixOf_iff_prefix.mpr hshort
          rw [hB k hk hk0] at htrue
          cases htrue
      · rw [hrl, if_neg hcond]
        have hnp : ¬ pat <+: (c :: rest) := fun hp =>
          hcond ⟨List.isPrefixOf_iff_prefix.mpr hp, hpat0⟩
        constructor
        · intro hocc
          rcases List.infix_cons_iff.mp hocc with hp | hV
          · obtain ⟨p0, pt, rfl⟩ : ∃ p0 pt, pat = p0 :: pt := by
              cases pat with
              | nil => simp at hpat0
              | cons a b => exact ⟨a, b, rfl⟩
            rw [List.cons_prefix_cons] at hp
            obtain ⟨hp0, hpt⟩ := hp
            by_cases hptnil : pt = []
            · apply hnp
              rw [hptnil, hp0]
              exact ⟨rest, rfl⟩
            · have hk1 : 1 < (p0 :: pt).length := by
                cases pt with
                | nil => exact absurd rfl hptnil
                | cons q qs => simp
              have hres := (ih rest hrestlen).2 1 (by omega) hk1 hpt
              apply hnp
              rw [hp0]
              exact List.cons_prefix_cons.mpr ⟨rfl, hres⟩
          · exact (ih rest hrestlen).1 hV
        · intro k hk0 hk hpre
          cases hdk : pat.drop k with
          | nil =>
            have := congrArg List.length hdk
            simp [List.length_drop] at this
            omega
          | cons q0 qt =>
            have hqt : qt = pat.drop (k + 1) := by
              have ht := List.tail_drop pat k
              rw [hdk] at ht
              exact ht
            rw [hdk, List.cons_prefix_cons] at hpre
            obtain ⟨hq0, hqpre⟩ := hpre
            by_cases hlast : k + 1 = pat.length
            · have hqtnil : qt = [] := by
                rw [hqt, hlast, List.drop_length]
              rw [hq0, hqtnil]
              exact List.cons_prefix_cons.mpr ⟨rfl, List.nil_prefix⟩
            · have hres := (ih rest hrestlen).2 (k + 1) (by omega) (by omega)
                (by rw [← hqt]; exact hqpre)
              rw [hq0]
              exact List.cons_prefix_cons.mpr ⟨rfl, by rw [hqt]; exact hres⟩

/-- The `enable_mod:b=yes` → `enable_mod:b=no` replacement of
`_disable_config_mod` leaves no occurrence of the yes-marker behind. -/
theorem replace_removes_yes (l : List Char) :
    ¬ yesMarker.data <:+: replaceList yesMarker.data noMarker.data l :=
  (replace_strong yesMarker.data noMarker.data (by decide) (by decide) (by decide)
    l.length l (Nat.le_refl _)).1

/-! ### Restore (`core_logic.py`, `restore_game`) -/

/-- A direct child of `sound/mod`, identified by its resolved absolute
path (`Path(item).resolve()`); a symlinked child may resolve anywhere. -/
structure ChildItem where
  resolved : List String
deriving DecidableEq, Repr

/-- Spec-side notion: `p` lies strictly inside the directory `root`. -/
def strictlyInside (root p : List String) : Bool :=
  root.isPrefixOf p && p != root

/-- `CoreService._is_safe_deletion_path` (core_logic.py:341-363):
`commonpath([target, mod_dir]) == mod_dir and target != mod_dir`,
i.e. the resolved target lies strictly inside `<game_root>/sound/mod`. -/
def isSafeDeletionPath (gameRoot : Option (List String)) (tp : List String) : Bool :=
  match gameRoot with
  | none => false
  | some root => (root ++ ["sound", "mod"]).isPrefixOf tp && tp != (root ++ ["sound", "mod"])

/-- The slice of game state touched by `restore_game`. -/
structure GameState where
  gameRoot : Option (List String)
  modDirExists : Bool
  modChildren : List ChildItem
  manifest : Manifest
  manifestFileExists : Bool
  config : Option String

/-- `CoreService._disable_config_mod` (core_logic.py:762-799): replace the
yes-marker by the no-marker; a missing config file is reported as failure. -/
def disableConfigMod (config : Option String) : Option String × Bool :=
  match config with
  | none => (none, false)
  | some content => (some (strReplace content yesMarker noMarker), true)

/-- `CoreService.restore_game` (core_logic.py:598-651): delete the direct
children of `sound/mod` that pass `_is_safe_deletion_path` (items failing
the check are skipped with a security warning), clear the manifest in
memory and on disk (`clear_manifest`), then disable the config marker.
Deletion and write I/O are modelled as succeeding; the `Bool` results of
the clear and disable steps are discarded, as in the code. -/
def restoreGame (s : GameState) : GameState × Bool :=
  match s.gameRoot with
  | none => (s, false)
  | some _ =>
    let children' :=
      if s.modDirExists then
        s.modChildren.filter fun item => !(isSafeDeletionPath s.gameRoot item.resolved)
      else s.modChildren
    ({ s with
        modChildren := children',
        manifest := clear_manifest,
        manifestFileExists := false,
        config := (disableConfigMod s.config).1 }, true)

/-- C6: a successful restore keeps the `sound/mod` directory itself, removes
exactly the direct children that resolve strictly inside it (others are
skipped), empties the in-memory manifest and deletes its file, and leaves a
config in which the enable marker never reads `yes` (and reads `no` whenever
it previously read `yes`). -/
theorem restore_game_spec (s : GameState) (root : List String)
    (h : s.gameRoot = some root) :
    ((restoreGame s).2 = true)
    ∧ ((restoreGame s).1.modDirExists = s.modDirExists)
    ∧ (∀ item, item ∈ (restoreGame s).1.modChildren ↔
        (item ∈ s.modChildren
          ∧ (s.modDirExists = true →
              strictlyInside (root ++ ["sound", "mod"]) item.resolved = false)))
    ∧ ((restoreGame s).1.manifestFileExists = false)
    ∧ ((restoreGame s).1.manifest = emptyManifest)
    ∧ (∀ c, (restoreGame s).1.config = some c → strContains c yesMarker = false)
    ∧ (∀ c0, s.config = some c0 → strContains c0 yesMarker = true →
        ∃ c, (restoreGame s).1.config = some c ∧ strContains c noMarker = true) := by
  obtain ⟨gr, mde, mc, man, mf, cfg⟩ := s
  cases h
  refine ⟨rfl, rfl, ?_, rfl, rfl, ?_, ?_⟩
  · intro item
    dsimp only [restoreGame]
    cases mde with
    | false => simp
    | true =>
      simp only [if_true, List.mem_filter, Bool.not_eq_true']
      constructor
      · rintro ⟨hmem, hsafe⟩
        exact ⟨hmem, fun _ => hsafe⟩
      · rintro ⟨hmem, hsafe⟩
        exact ⟨hmem, hsafe trivial⟩
  · intro c hc
    cases cfg with
    | none => cases hc
    | some c0 =>
      have hc' : strReplace c0 yesMarker noMarker = c := by
        injection hc
      rw [← hc']
      rw [strContains]
      rw [Bool.eq_false_iff]
      intro habs
      rw [listContains_iff] at habs
      exact replace_removes_yes c0.data habs
  · intro c0 hc0 hyes
    have hcfg : cfg = some c0 := hc0
    subst hcfg
    refine ⟨strReplace c0 yesMarker noMarker, rfl, ?_⟩
    rw [strContains, listContains_iff]
    rw [strContains, listContains_iff] at hyes
    exact replace_gives_rep yesMarker.data noMarker.data (by decide) c0.data hyes

/-- Witness for `restore_game_spec`: a concrete state with a game root, one
child strictly inside `sound/mod` (deleted) and one symlink child resolving
outside (kept). -/
theorem restore_game_spec_witness :
    (restoreGame { gameRoot := some ["wt"], modDirExists := true,
                   modChildren := [{ resolved := ["wt", "sound", "mod", "a.bank"] },
                                   { resolved := ["wt", "sound"] }],
                   manifest := emptyManifest, manifestFileExists := true,
                   config := some "sound{enable_mod:b=yes}" }).2 = true :=
  (restore_game_spec _ ["wt"] rfl).1

/-! ### Safe ZIP extraction (`library_manager.py`, `_extract_zip_safely`)

Paths are lists of segments from the filesystem root.  An entry's
filename is the decoded name (the cp437/utf-8/cp950/gbk decode chain is
not modelled; its output is taken as given).  `destPath` models
`(target_dir / filename).resolve()`: joining (an absolute member name
replaces the base, as with `pathlib`), then lexical resolution of `..`
and `.` segments.  `madeDir`/`wroteFile` record the resolved path a
member's mkdir/write lands on; progress callbacks and byte counting are
omitted (no claim observes them). -/

/-- Split on `/` (list-of-chars version of Python's `"str".split("/")`). -/
def splitSlash : List Char → List (List Char)
  | [] => [[]]
  | c :: rest =>
    if c = '/' then [] :: splitSlash rest
    else
      match splitSlash rest with
      | [] => [[c]]
      | seg :: segs => (c :: seg) :: segs

/-- The `/`-separated segments of a member filename. -/
def pathSegs (name : String) : List String :=
  (splitSlash name.data).map fun cs => String.mk cs

/-- Whether the member name is absolute (starts with `/`). -/
def isAbsName (name : String) : Bool :=
  match name.data with
  | '/' :: _ => true
  | _ => false

/-- Lexical resolution of `..`/`.`/empty segments on top of a resolved
base path, as `Path.resolve()` does in the absence of symlinks
(`/..` stays at the root). -/
def resolveSegs (base : List String) (segs : List String) : List String :=
  segs.foldl
    (fun acc seg =>
      if seg = ".." then acc.dropLast
      else if seg = "." ∨ seg = "" then acc
      else acc ++ [seg])
    base

/-- `(target_dir / filename).resolve()` (library_manager.py:950). -/
def destPath (targetRoot : List String) (name : String) : List String :=
  if isAbsName name then resolveSegs [] (pathSegs name)
  else resolveSegs targetRoot (pathSegs name)

/-- The always-skipped junk names (library_manager.py:933):
`"__MACOSX" in filename or "desktop.ini" in filename`. -/
def isJunkName (name : String) : Bool :=
  strContains name "__MACOSX" || strContains name "desktop.ini"

/-- The unresolved lexical segments of `target_dir / filename` as `pathlib`
normalises them (`.` and empty components dropped, `..` kept; an absolute
member name replaces the base). -/
def lexSegs (targetRoot : List String) (name : String) : List String :=
  (if isAbsName name then [] else targetRoot)
    ++ (pathSegs name).filter fun seg => !(seg == "." || seg == "")

/-- Resolved locations of the directories ensured (created when missing) by
the `mkdir(parents=True, exist_ok=True)` calls of the extractor
(library_manager.py:961 and 963): every proper lexical prefix of the
unresolved joined path, resolved.  For a directory member this is the
ancestor chain of its full path; for a file member, the ancestor chain of
its lexical parent — the same list, since `.parent` drops the last lexical
component. -/
def parentEnsured (targetRoot : List String) (name : String) : List (List String) :=
  (List.range ((lexSegs targetRoot name).length - 1)).map fun i =>
    resolveSegs [] ((lexSegs targetRoot name).take (i + 1))

/-- One ZIP member: decoded filename, directory flag
(`member.is_dir()`), encryption flag (`member.flag_bits & 0x1`). -/
structure ZipEntry where
  filename : String
  isDir : Bool
  encrypted : Bool
deriving DecidableEq, Repr

/-- What the extractor did with one member.  `madeParentDir` records a
directory ensured (created when missing) by a `mkdir(parents=True)` call
along the member's unresolved lexical path. -/
inductive EntryOutcome where
  | junkSkipped (name : String)
  | traversalSkipped (name : String)
  | madeParentDir (p : List String)
  | madeDir (p : List String)
  | wroteFile (p : List String)
deriving DecidableEq, Repr

/-- How a whole extraction attempt ends. -/
inductive ExtractStatus where
  | ok
  | passwordRequired
  | passwordIncorrect
deriving DecidableEq, Repr

/-- `LibraryManager._extract_zip_safely` (library_manager.py:892-1001).
Per member, in order: skip junk names; skip (with a warning) members whose
resolved destination fails the `commonpath == target_root` containment
check; create directories; for files, fail with `passwordRequired` when
encrypted and no password was given, with `passwordIncorrect` when the
supplied password is wrong (`correctPwd` is the archive's password), else
write the file.  A password failure aborts the remaining members, as the
raised exception does. -/
def extractZipSafely (targetRoot : List String) (correctPwd : String)
    (password : Option String) : List ZipEntry → List EntryOutcome × ExtractStatus
  | [] => ([], ExtractStatus.ok)
  | e :: rest =>
    if isJunkName e.filename then
      (EntryOutcome.junkSkipped e.filename
          :: (extractZipSafely targetRoot correctPwd password rest).1,
        (extractZipSafely targetRoot correctPwd password rest).2)
    else if targetRoot.isPrefixOf (destPath targetRoot e.filename) = false then
      (EntryOutcome.traversalSkipped e.filename
          :: (extractZipSafely targetRoot correctPwd password rest).1,
        (extractZipSafely targetRoot correctPwd password rest).2)
    else if e.isDir then
      ((parentEnsured targetRoot e.filename).map EntryOutcome.madeParentDir
          ++ EntryOutcome.madeDir (destPath targetRoot e.filename)
            :: (extractZipSafely targetRoot correctPwd password rest).1,
        (extractZipSafely targetRoot correctPwd password rest).2)
    else if e.encrypted then
      match password with
      | none =>
        ((parentEnsured targetRoot e.filename).map EntryOutcome.madeParentDir,
          ExtractStatus.passwordRequired)
      | some p =>
        if p = correctPwd then
          ((parentEnsured targetRoot e.filename).map EntryOutcome.madeParentDir
              ++ EntryOutcome.wroteFile (destPath targetRoot e.filename)
                :: (extractZipSafely targetRoot correctPwd password rest).1,
            (extractZipSafely targetRoot correctPwd password rest).2)
        else
          ((parentEnsured targetRoot e.filename).map EntryOutcome.madeParentDir,
            ExtractStatus.passwordIncorrect)
    else
      ((parentEnsured targetRoot e.filename).map EntryOutcome.madeParentDir
          ++ EntryOutcome.wroteFile (destPath targetRoot e.filename)
            :: (extractZipSafely targetRoot correctPwd password rest).1,
        (extractZipSafely targetRoot correctPwd password rest).2)

/-- C1 (amended): on an archive with no encrypted members the extraction
completes; the destination of every extracted member (the file written, or
the directory a directory-member denotes) has the resolved target root as
a path prefix — never outside it, though equality with the root itself is
admitted; every non-junk member whose resolved destination does not extend
the target root is skipped with a warning; every other non-junk member is
extracted.  (Intermediate `madeParentDir` directories ensured by
`mkdir(parents=True)` are exempt from the containment guarantee — see the
counterexample.) -/
theorem extract_zip_safely_path_safety (targetRoot : List String)
    (correctPwd : String) (entries : List ZipEntry)
    (henc : ∀ e ∈ entries, e.encrypted = false) :
    ((extractZipSafely targetRoot correctPwd none entries).2 = ExtractStatus.ok)
    ∧ (∀ p, (EntryOutcome.madeDir p ∈ (extractZipSafely targetRoot correctPwd none entries).1
          ∨ EntryOutcome.wroteFile p ∈ (extractZipSafely targetRoot correctPwd none entries).1) →
        targetRoot.isPrefixOf p = true)
    ∧ (∀ e ∈ entries, isJunkName e.filename = false →
        targetRoot.isPrefixOf (destPath targetRoot e.filename) = false →
        EntryOutcome.traversalSkipped e.filename
          ∈ (extractZipSafely targetRoot correctPwd none entries).1)
    ∧ (∀ e ∈ entries, isJunkName e.filename = false →
        targetRoot.isPrefixOf (destPath targetRoot e.filename) = true →
        (if e.isDir then EntryOutcome.madeDir (destPath targetRoot e.filename)
          else EntryOutcome.wroteFile (destPath targetRoot e.filename))
          ∈ (extractZipSafely targetRoot correctPwd none entries).1) := by
  induction entries with
  | nil =>
    refine ⟨rfl, ?_, ?_, ?_⟩
    · intro p hp
      rcases hp with hp | hp <;> cases hp
    · intro e he
      cases he
    · intro e he
      cases he
  | cons e rest ih =>
    have he : e.encrypted = false := henc e (List.mem_cons_self e rest)
    have ihr := ih fun x hx => henc x (List.mem_cons_of_mem e hx)
    by_cases hjunk : isJunkName e.filename = true
    · have hstep : extractZipSafely targetRoot correctPwd none (e :: rest)
          = (EntryOutcome.junkSkipped e.filename
              :: (extractZipSafely targetRoot correctPwd none rest).1,
            (extractZipSafely targetRoot correctPwd none rest).2) := by
        rw [extractZipSafely, if_pos hjunk]
      refine ⟨by rw [hstep]; exact ihr.1, ?_, ?_, ?_⟩
      · intro p hp
        rw [hstep] at hp
        rcases hp with hp | hp <;> rcases List.mem_cons.mp hp with h | h
        · simp at h
        · exact ihr.2.1 p (Or.inl h)
        · simp at h
        · exact ihr.2.1 p (Or.inr h)
      · intro x hx hxjunk hxout
        rcases List.mem_cons.mp hx with rfl | hx'
        · rw [hjunk] at hxjunk
          cases hxjunk
        · rw [hstep]
          exact List.mem_cons_of_mem _ (ihr.2.2.1 x hx' hxjunk hxout)
      · intro x hx hxjunk hxin
        rcases List.mem_cons.mp hx with rfl | hx'
        · rw [hjunk] at hxjunk
          cases hxjunk
        · rw [hstep]
          exact List.mem_cons_of_mem _ (ihr.2.2.2 x hx' hxjunk hxin)
    · have hjunk' : isJunkName e.filename = false := by
        cases hj : isJunkName e.filename with
        | false => rfl
        | true => exact absurd hj hjunk
      by_cases hin : targetRoot.isPrefixOf (destPath targetRoot e.filename) = true
      · -- inside the target: the member is extracted
        by_cases hdir : e.isDir = true
        · have hstep : extractZipSafely targetRoot correctPwd none (e :: rest)
              = ((parentEnsured targetRoot e.filename).map EntryOutcome.madeParentDir
                  ++ EntryOutcome.madeDir (destPath targetRoot e.filename)
                    :: (extractZipSafely targetRoot correctPwd none rest).1,
                (extractZipSafely targetRoot correctPwd none rest).2) := by
            rw [extractZipSafely, if_neg hjunk, if_neg (by simp [hin]), if_pos hdir]
          refine ⟨by rw [hstep]; exact ihr.1, ?_, ?_, ?_⟩
          · intro p hp
            rw [hstep] at hp
            rcases hp with hp | hp <;> rcases List.mem_append.mp hp with h | h
            · obtain ⟨q, hq, hqe⟩ := List.mem_map.mp h
              simp at hqe
            · rcases List.mem_cons.mp h with h' | h'
              · cases h'
                exact hin
              · exact ihr.2.1 p (Or.inl h')
            · obtain ⟨q, hq, hqe⟩ := List.mem_map.mp h
              simp at hqe
            · rcases List.mem_cons.mp h with h' | h'
              · simp at h'
              · exact ihr.2.1 p (Or.inr h')
          · intro x hx hxjunk hxout
            rcases List.mem_cons.mp hx with rfl | hx'
            · rw [hin] at hxout
              cases hxout
            · rw [hstep]
              exact List.mem_append_right _
                (List.mem_cons_of_mem _ (ihr.2.2.1 x hx' hxjunk hxout))
          · intro x hx hxjunk hxin
            rcases List.mem_cons.mp hx with rfl | hx'
            · rw [hstep, hdir]
              exact List.mem_append_right _ (List.mem_cons_self _ _)
            · rw [hstep]
              exact List.mem_append_right _
                (List.mem_cons_of_mem _ (ihr.2.2.2 x hx' hxjunk hxin))
        · have hstep : extractZipSafely targetRoot correctPwd none (e :: rest)
              = ((parentEnsured targetRoot e.filename).map EntryOutcome.madeParentDir
                  ++ EntryOutcome.wroteFile (destPath targetRoot e.filename)
                    :: (extractZipSafely targetRoot correctPwd none rest).1,
                (extractZipSafely targetRoot correctPwd none rest).2) := by
            rw [extractZipSafely, if_neg hjunk, if_neg (by simp [hin]), if_neg hdir,
              if_neg (by simp [he])]
          refine ⟨by rw [hstep]; exact ihr.1, ?_, ?_, ?_⟩
          · intro p hp
            rw [hstep] at hp
            rcases hp with hp | hp <;> rcases List.mem_append.mp hp with h | h
            · obtain ⟨q, hq, hqe⟩ := List.mem_map.mp h
              simp at hqe
            · rcases List.mem_cons.mp h with h' | h'
              · simp at h'
              · exact ihr.2.1 p (Or.inl h')
            · obtain ⟨q, hq, hqe⟩ := List.mem_map.mp h
              simp at hqe
            · rcases List.mem_cons.mp h with h' | h'
              · cases h'
                exact hin
              · exact ihr.2.1 p (Or.inr h')
          · intro x hx hxjunk hxout
            rcases List.mem_cons.mp hx with rfl | hx'
            · rw [hin] at hxout
              cases hxout
            · rw [hstep]
              exact List.mem_append_right _
                (List.mem_cons_of_mem _ (ihr.2.2.1 x hx' hxjunk hxout))
          · intro x hx hxjunk hxin
            rcases List.mem_cons.mp hx with rfl | hx'
            · rw [hstep, if_neg hdir]
              exact List.mem_append_right _ (List.mem_cons_self _ _)
            · rw [hstep]
              exact List.mem_append_right _
                (List.mem_cons_of_mem _ (ihr.2.2.2 x hx' hxjunk hxin))
      · -- escaping the target: skipped with a warning
        have hin' : targetRoot.isPrefixOf (destPath targetRoot e.filename) = false := by
          cases hi : targetRoot.isPrefixOf (destPath targetRoot e.filename) with
          | false => rfl
          | true => exact absurd hi hin
        have hstep : extractZipSafely targetRoot correctPwd none (e :: rest)
            = (EntryOutcome.traversalSkipped e.filename
                :: (extractZipSafely targetRoot correctPwd none rest).1,
              (extractZipSafely targetRoot correctPwd none rest).2) := by
          rw [extractZipSafely, if_neg hjunk, if_pos hin']
        refine ⟨by rw [hstep]; exact ihr.1, ?_, ?_, ?_⟩
        · intro p hp
          rw [hstep] at hp
          rcases hp with hp | hp <;> rcases List.mem_cons.mp hp with h | h
          · simp at h
          · exact ihr.2.1 p (Or.inl h)
          · simp at h
          · exact ihr.2.1 p (Or.inr h)
        · intro x hx hxjunk hxout
          rcases List.mem_cons.mp hx with rfl | hx'
          · rw [hstep]
            exact List.mem_cons_self _ _
          · rw [hstep]
            exact List.mem_cons_of_mem _ (ihr.2.2.1 x hx' hxjunk hxout)
        · intro x hx hxjunk hxin
          rcases List.mem_cons.mp hx with rfl | hx'
          · rw [hin'] at hxin
            cases hxin
          · rw [hstep]
            exact List.mem_cons_of_mem _ (ihr.2.2.2 x hx' hxjunk hxin)

/-- Witness for `extract_zip_safely_path_safety`: a two-member archive with
a traversal entry `../../evil.txt` and an honest `a.bank`; the traversal
entry is skipped, the honest one extracted, extraction completes. -/
theorem extract_zip_safely_path_safety_witness :
    ((extractZipSafely ["lib", "pkg"] "" none
        [{ filename := "../../evil.txt", isDir := false, encrypted := false },
         { filename := "a.bank", isDir := false, encrypted := false }]).2
      = ExtractStatus.ok)
    ∧ (EntryOutcome.traversalSkipped "../../evil.txt"
        ∈ (extractZipSafely ["lib", "pkg"] "" none
            [{ filename := "../../evil.txt", isDir := false, encrypted := false },
             { filename := "a.bank", isDir := false, encrypted := false }]).1) := by
  have h := extract_zip_safely_path_safety ["lib", "pkg"] ""
    [{ filename := "../../evil.txt", isDir := false, encrypted := false },
     { filename := "a.bank", isDir := false, encrypted := false }]
    (by intro e he; fin_cases he <;> rfl)
  refine ⟨h.1, ?_⟩
  exact h.2.2.1 { filename := "../../evil.txt", isDir := false, encrypted := false }
    (by simp) (by decide) (by decide)

/-- Counterexample to C1 as stated.  (a) A directory member `a/../`
resolves to the target root itself — hence not strictly inside it — yet is
not skipped: the `commonpath` containment check admits equality, so its
mkdir is performed.  (b) A `__MACOSX/x.bank` member whose destination is
strictly inside the target is skipped rather than extracted.  (c) The
member `../other/../pkg/evil.txt` of target `lib/pkg` passes the
containment check (its resolved destination is `lib/pkg/evil.txt`), but
the `parent.mkdir(parents=True)` call walks its unresolved lexical path
and ensures the directory `lib/other` — outside the target and not a
pre-existing ancestor of it — so extraction can create a directory
outside the target directory. -/
theorem extract_zip_safely_strictness_cx :
    ((extractZipSafely ["t"] "" none
        [{ filename := "a/../", isDir := true, encrypted := false }]).1
      = [EntryOutcome.madeParentDir ["t"], EntryOutcome.madeParentDir ["t", "a"],
         EntryOutcome.madeDir ["t"]])
    ∧ (strictlyInside ["t"] (destPath ["t"] "a/../") = false)
    ∧ ((extractZipSafely ["t"] "" none
        [{ filename := "__MACOSX/x.bank", isDir := false, encrypted := false }]).1
      = [EntryOutcome.junkSkipped "__MACOSX/x.bank"])
    ∧ (strictlyInside ["t"] (destPath ["t"] "__MACOSX/x.bank") = true)
    ∧ (["lib", "pkg"].isPrefixOf
        (destPath ["lib", "pkg"] "../other/../pkg/evil.txt") = true)
    ∧ (EntryOutcome.madeParentDir ["lib", "other"]
        ∈ (extractZipSafely ["lib", "pkg"] "" none
            [{ filename := "../other/../pkg/evil.txt", isDir := false,
               encrypted := false }]).1)
    ∧ (["lib", "pkg"].isPrefixOf ["lib", "other"] = false)
    ∧ (["lib", "other"].isPrefixOf ["lib", "pkg"] = false) := by
  decide

/-! ### Password retry loop (`library_manager.py`,
`_extract_archive_with_password` / `unzip_single_zip`)

The `password_provider` callback is modelled as the list of its
successive return values (`none` = the cancellation sentinel); the
`reason` strings handed to it are collected in order.  Only the ZIP
branch is modelled (the 7z fallback path is separate code). -/

/-- How the retry loop ends. -/
inductive LoopResult where
  | success
  | canceled
  | noProvider
deriving DecidableEq, Repr

/-- `_extract_archive_with_password` (library_manager.py:700-733) for a ZIP:
attempt `_extract_zip_safely`; on `PasswordRequired`/`PasswordIncorrect`
ask the provider (recording the reason), cancel on the sentinel, retry with
the returned password.  Returns the reasons given to the provider, the
outcome, and the number of extraction attempts.  An absent (exhausted)
provider re-raises: `noProvider`. -/
def extractLoop (targetRoot : List String) (entries : List ZipEntry)
    (correctPwd : String) :
    Option String → List (Option String) → List String × LoopResult × Nat
  | password, responses =>
    match (extractZipSafely targetRoot correctPwd password entries).2 with
    | ExtractStatus.ok => ([], LoopResult.success, 1)
    | ExtractStatus.passwordRequired =>
      match responses with
      | [] => ([], LoopResult.noProvider, 1)
      | none :: _ => (["required"], LoopResult.canceled, 1)
      | some p :: rest =>
        match extractLoop targetRoot entries correctPwd (some p) rest with
        | (rs, res, n) => ("required" :: rs, res, n + 1)
    | ExtractStatus.passwordIncorrect =>
      match responses with
      | [] => ([], LoopResult.noProvider, 1)
      | none :: _ => (["incorrect"], LoopResult.canceled, 1)
      | some p :: rest =>
        match extractLoop targetRoot entries correctPwd (some p) rest with
        | (rs, res, n) => ("incorrect" :: rs, res, n + 1)

/-- Outcome of a single-archive import. -/
inductive UnzipOutcome where
  | imported
  | canceledRemoved
  | failedRemoved
  | skippedDuplicate
deriving DecidableEq, Repr

/-- `LibraryManager.unzip_single_zip` (library_manager.py:735-828), target
directory handling: skip when the package directory pre-exists; otherwise
create it, run the retry loop, and on cancellation (or any other failure)
remove the partially created directory before re-raising.  Returns
(does the target directory exist afterwards, outcome). -/
def unzipSingleZip (targetRoot : List String) (entries : List ZipEntry)
    (correctPwd : String) (responses : List (Option String))
    (targetPreexists : Bool) : Bool × UnzipOutcome :=
  if targetPreexists then (true, UnzipOutcome.skippedDuplicate)
  else
    match (extractLoop targetRoot entries correctPwd none responses).2.1 with
    | LoopResult.success => (true, UnzipOutcome.imported)
    | LoopResult.canceled => (false, UnzipOutcome.canceledRemoved)
    | LoopResult.noProvider => (false, UnzipOutcome.failedRemoved)

/-- Extraction with the archive's correct password always completes. -/
theorem extract_correct_password (targetRoot : List String) (correctPwd : String) :
    ∀ entries : List ZipEntry,
      (extractZipSafely targetRoot correctPwd (some correctPwd) entries).2
        = ExtractStatus.ok := by
  intro entries
  induction entries with
  | nil => rfl
  | cons e rest ih =>
    rw [extractZipSafely]
    by_cases hjunk : isJunkName e.filename = true
    · rw [if_pos hjunk]
      exact ih
    · rw [if_neg hjunk]
      by_cases hout : targetRoot.isPrefixOf (destPath targetRoot e.filename) = false
      · rw [if_pos hout]
        exact ih
      · rw [if_neg hout]
        by_cases hdir : e.isDir = true
        · rw [if_pos hdir]
          exact ih
        · rw [if_neg hdir]
          by_cases henc : e.encrypted = true
          · rw [if_pos henc]
            rw [if_pos rfl]
            exact ih
          · rw [if_neg henc]
            exact ih

/-- If extraction without a password demands one, extraction with a wrong
password reports it incorrect. -/
theorem extract_wrong_password (targetRoot : List String) (correctPwd : String)
    (p : String) (hp : p ≠ correctPwd) :
    ∀ entries : List ZipEntry,
      (extractZipSafely targetRoot correctPwd none entries).2
          = ExtractStatus.passwordRequired →
      (extractZipSafely targetRoot correctPwd (some p) entries).2
          = ExtractStatus.passwordIncorrect := by
  intro entries
  induction entries with
  | nil => intro h; cases h
  | cons e rest ih =>
    intro hreq
    rw [extractZipSafely] at hreq
    rw [extractZipSafely]
    by_cases hjunk : isJunkName e.filename = true
    · rw [if_pos hjunk] at hreq ⊢
      exact ih hreq
    · rw [if_neg hjunk] at hreq ⊢
      by_cases hout : targetRoot.isPrefixOf (destPath targetRoot e.filename) = false
      · rw [if_pos hout] at hreq ⊢
        exact ih hreq
      · rw [if_neg hout] at hreq ⊢
        by_cases hdir : e.isDir = true
        · rw [if_pos hdir] at hreq ⊢
          exact ih hreq
        · rw [if_neg hdir] at hreq ⊢
          by_cases henc : e.encrypted = true
          · rw [if_pos henc]
            rw [if_neg hp]
          · rw [if_neg henc] at hreq ⊢
            exact ih hreq

/-- C7: on a password-protected archive, a provider answering a wrong then
the correct password is prompted with reasons `required` then `incorrect`
and extraction succeeds on the third attempt (exactly one retry after the
failed password attempt); a provider that cancels aborts with
`PasswordCanceled` and `unzip_single_zip` removes the partially created
package directory. -/
theorem password_retry_spec (targetRoot : List String) (entries : List ZipEntry)
    (correctPwd w : String)
    (hreq : (extractZipSafely targetRoot correctPwd none entries).2
      = ExtractStatus.passwordRequired)
    (hw : w ≠ correctPwd) :
    (extractLoop targetRoot entries correctPwd none [some w, some correctPwd]
      = (["required", "incorrect"], LoopResult.success, 3))
    ∧ (extractLoop targetRoot entries correctPwd none [none]
      = (["required"], LoopResult.canceled, 1))
    ∧ (unzipSingleZip targetRoot entries correctPwd [none] false
      = (false, UnzipOutcome.canceledRemoved)) := by
  have hok := extract_correct_password targetRoot correctPwd entries
  have hinc := extract_wrong_password targetRoot correctPwd w hw entries hreq
  have hcancel : extractLoop targetRoot entries correctPwd none [none]
      = (["required"], LoopResult.canceled, 1) := by
    rw [extractLoop, hreq]
  refine ⟨?_, hcancel, ?_⟩
  · rw [extractLoop, hreq]
    dsimp only
    rw [extractLoop, hinc]
    dsimp only
    rw [extractLoop, hok]
  · rw [unzipSingleZip, if_neg (by simp), hcancel]

/-- Witness for `password_retry_spec`: a one-member encrypted archive with
password `correct` and a provider answering `wrong` then `correct`. -/
theorem password_retry_spec_witness :
    extractLoop ["lib", "pkg"]
        [{ filename := "a.bank", isDir := false, encrypted := true }]
        "correct" none [some "wrong", some "correct"]
      = (["required", "incorrect"], LoopResult.success, 3) :=
  (password_retry_spec ["lib", "pkg"]
    [{ filename := "a.bank", isDir := false, encrypted := true }]
    "correct" "wrong" (by decide) (by decide)).1

/-! ### Installer (`core_logic.py`, `install_from_library`)

`lookupFolder` models the enumeration of one selected folder: `none` if
the source folder does not exist (skipped with a warning), else the
recursively walked file names, with the sentinel `"根目录"` mapping to
the package root.  `copyOk` models per-file `shutil.copy2` success
(failures are logged and skipped).  `configOk` is the `Bool` returned by
`_update_config_blk` — the code discards it.  The recorded events are
the milestone progress callbacks; the time-throttled per-file progress
updates inside the copy loop are omitted (no claim observes them). -/

/-- Observable outcome of one `install_from_library` run. -/
structure InstallOutcome where
  events : List (Nat × String)
  copied : List String
  manifestRecorded : Option (String × List String)
  configAttempted : Bool
  ok : Bool
deriving DecidableEq, Repr

/-- Flat copy plan: files of each selected folder, in selection order
(missing folders contribute nothing). -/
def enumerateFiles (lookupFolder : String → Option (List String))
    (installList : List String) : List String :=
  installList.foldl (fun acc folder => acc ++ ((lookupFolder folder).getD [])) []

/-- `CoreService.install_from_library` (core_logic.py:438-596). -/
def installFromLibrary (gameRootSet : Bool) (sourceName : String)
    (lookupFolder : String → Option (List String))
    (installList : Option (List String))
    (copyOk : String → Bool)
    (hasManifestMgr : Bool)
    (configOk : Bool) : InstallOutcome :=
  if gameRootSet = false then
    { events := [(5, "准备安装: " ++ sourceName), (100, "安装失败")],
      copied := [], manifestRecorded := none, configAttempted := false, ok := false }
  else if installList = none ∨ installList = some [] then
    { events := [(5, "准备安装: " ++ sourceName), (10, "扫描待安装文件..."),
        (100, "未选择文件")],
      copied := [], manifestRecorded := none, configAttempted := false, ok := false }
  else
    let plan := enumerateFiles lookupFolder ((installList.getD []))
    if plan = [] then
      { events := [(5, "准备安装: " ++ sourceName), (10, "扫描待安装文件..."),
          (100, "没有文件")],
        copied := [], manifestRecorded := none, configAttempted := false, ok := false }
    else
      let copied := plan.filter copyOk
      { events := [(5, "准备安装: " ++ sourceName), (10, "扫描待安装文件..."),
          (15, "共 " ++ toString plan.length ++ " 个文件待安装"),
          (95, "更新游戏配置..."), (100, "安装完成")],
        copied := copied,
        manifestRecorded :=
          if hasManifestMgr ∧ copied.length > 0 then some (sourceName, copied) else none,
        -- `self._update_config_blk()` (core_logic.py:578): its Bool result
        -- (`configOk`) is discarded; success is reported regardless.
        configAttempted := true,
        ok := true }

/-- C8: with a validated game root, an empty or missing folder selection
ends the operation at 100% with the "no files selected" report and no
copies, no manifest record and no config write; zero discoverable files
after enumeration likewise ends at 100% with the "no files" report and no
further filesystem action. -/
theorem install_no_selection_spec (sourceName : String)
    (lookupFolder : String → Option (List String)) (copyOk : String → Bool)
    (hasManifestMgr configOk : Bool) :
    (∀ installList, installList = none ∨ installList = some ([] : List String) →
      (installFromLibrary true sourceName lookupFolder installList copyOk hasManifestMgr configOk).events.getLast?
          = some (100, "未选择文件")
        ∧ (installFromLibrary true sourceName lookupFolder installList copyOk hasManifestMgr configOk).copied = []
        ∧ (installFromLibrary true sourceName lookupFolder installList copyOk hasManifestMgr configOk).manifestRecorded = none
        ∧ (installFromLibrary true sourceName lookupFolder installList copyOk hasManifestMgr configOk).configAttempted = false)
    ∧ (∀ l, enumerateFiles lookupFolder l = [] → ¬(l = []) →
      (installFromLibrary true sourceName lookupFolder (some l) copyOk hasManifestMgr configOk).events.getLast?
          = some (100, "没有文件")
        ∧ (installFromLibrary true sourceName lookupFolder (some l) copyOk hasManifestMgr configOk).copied = []
        ∧ (installFromLibrary true sourceName lookupFolder (some l) copyOk hasManifestMgr configOk).manifestRecorded = none
        ∧ (installFromLibrary true sourceName lookupFolder (some l) copyOk hasManifestMgr configOk).configAttempted = false) := by
  constructor
  · intro installList hsel
    rw [installFromLibrary, if_neg (by simp), if_pos hsel]
    exact ⟨rfl, rfl, rfl, rfl⟩
  · intro l hplan hne
    have hsel : ¬((some l : Option (List String)) = none ∨ some l = some ([] : List String)) := by
      rintro (h | h)
      · cases h
      · exact hne (by injection h)
    rw [installFromLibrary, if_neg (by simp), if_neg hsel]
    simp only [Option.getD_some]
    rw [if_pos hplan]
    exact ⟨rfl, rfl, rfl, rfl⟩

/-- Witness for `install_no_selection_spec`: a `none` selection reports
"no files selected", and a selection naming a missing folder reports
"no files". -/
theorem install_no_selection_spec_witness :
    ((installFromLibrary true "Alpha" (fun _ => none) none (fun _ => true) true true).events.getLast?
      = some (100, "未选择文件"))
    ∧ ((installFromLibrary true "Alpha" (fun _ => none) (some ["voice"]) (fun _ => true) true true).events.getLast?
      = some (100, "没有文件")) := by
  have h := install_no_selection_spec "Alpha" (fun _ => none) (fun _ => true) true true
  exact ⟨(h.1 none (Or.inl rfl)).1, (h.2 ["voice"] (by decide) (by decide)).1⟩

/-- C9: any run that reaches the config-update step reports 安装完成 at
100% and returns `True` for every result of `_update_config_blk` — the
installer discards that Bool, so a reported success does not guarantee
the enable flag was set. -/
theorem install_discards_config_result (sourceName : String)
    (lookupFolder : String → Option (List String)) (l : List String)
    (copyOk : String → Bool) (hasManifestMgr : Bool)
    (hplan : ¬(enumerateFiles lookupFolder l = [])) :
    ∀ configOk,
      (installFromLibrary true sourceName lookupFolder (some l) copyOk hasManifestMgr configOk).ok = true
      ∧ (installFromLibrary true sourceName lookupFolder (some l) copyOk hasManifestMgr configOk).events.getLast?
          = some (100, "安装完成")
      ∧ (installFromLibrary true sourceName lookupFolder (some l) copyOk hasManifestMgr configOk).configAttempted = true := by
  intro configOk
  have hne : ¬(l = []) := by
    intro h
    subst h
    exact hplan rfl
  have hsel : ¬((some l : Option (List String)) = none ∨ some l = some ([] : List String)) := by
    rintro (h | h)
    · cases h
    · exact hne (by injection h)
  rw [installFromLibrary, if_neg (by simp), if_neg hsel]
  simp only [Option.getD_some]
  rw [if_neg hplan]
  exact ⟨rfl, rfl, rfl⟩

/-- Witness for `install_discards_config_result`: one folder with one file,
`_update_config_blk` returning `False`; the install still reports success. -/
theorem install_discards_config_result_witness :
    (installFromLibrary true "Alpha"
        (fun f => if f = "根目录" then some ["ground_a.bank"] else none)
        (some ["根目录"]) (fun _ => true) true false).ok = true :=
  (install_discards_config_result "Alpha"
    (fun f => if f = "根目录" then some ["ground_a.bank"] else none)
    ["根目录"] (fun _ => true) true (by decide) false).1

end AimerWT
